import Mathlib

/-!
Verification of the tree-view component (`tree-view.tsx`).

The component is a collapsible, keyboard-navigable tree widget.  Its
behaviour is purely functional state manipulation inside event handlers,
so it embeds directly:

* `TreeItem` is the caller-supplied `TreeDataItem` restricted to the
  fields the verified operations read (`id`, `name`, the presence of an
  `onClick` callback, `children`).  Icons, actions and the drag flags are
  only read by rendering code and are omitted.
* `PTree` is the processed node produced by `processItems`: a structural
  copy of a `TreeItem` carrying a back-reference to its parent.  The
  source stores the parent as an object reference; since ids identify
  nodes, the embedding stores the parent id (`Option String`, `none` for
  roots), as the spec's design notes also suggest.
* The component accepts either a single root item or an array of root
  items (`data: TreeDataItem[] | TreeDataItem`); `TreeData` / `PData`
  mirror that union.  Functions that the source writes with an
  `instanceof Array` test and a non-array branch are embedded as a
  mutual pair (one function on a node, one on a list) plus a dispatcher
  on the union; the source's array branch treats each element exactly as
  the non-array branch treats a single node, except where noted
  (`walkTreeItems`).
* Component state (`selectedItemId`, `expandedItems`) is `TreeState`;
  React state updates become explicit state passing.  `expandedItems` is
  a `List String`, as in the source (a JS array, not a set).
* Callback invocations (`onSelectChange`, item `onClick`, `onDocumentDrag`)
  are modelled as returned event lists / result options.
-/

/-- Caller-supplied tree item (`TreeDataItem`).  `children = none` marks a
leaf; `children = some []` is present-but-empty, which the source treats
differently from absent. `hasOnClick` records whether the optional
`onClick` callback is present. -/
inductive TreeItem : Type where
  | mk (id : String) (name : String) (hasOnClick : Bool)
      (children : Option (List TreeItem)) : TreeItem

def TreeItem.id : TreeItem → String
  | .mk i _ _ _ => i

def TreeItem.name : TreeItem → String
  | .mk _ n _ _ => n

def TreeItem.hasOnClick : TreeItem → Bool
  | .mk _ _ c _ => c

def TreeItem.children : TreeItem → Option (List TreeItem)
  | .mk _ _ _ c => c

/-- The `data` prop: `TreeDataItem[] | TreeDataItem`. -/
inductive TreeData : Type where
  | single (t : TreeItem)
  | many (ts : List TreeItem)

/-- Processed node: the copy produced by `processItems`, augmented with the
parent back-reference (as the parent's id, `none` for roots). -/
inductive PTree : Type where
  | mk (id : String) (name : String) (hasOnClick : Bool)
      (parent : Option String) (children : Option (List PTree)) : PTree

def PTree.id : PTree → String
  | .mk i _ _ _ _ => i

def PTree.name : PTree → String
  | .mk _ n _ _ _ => n

def PTree.hasOnClick : PTree → Bool
  | .mk _ _ c _ _ => c

def PTree.parent : PTree → Option String
  | .mk _ _ _ p _ => p

def PTree.children : PTree → Option (List PTree)
  | .mk _ _ _ _ c => c

/-- Processed form of the `data` prop. -/
inductive PData : Type where
  | single (t : PTree)
  | many (ts : List PTree)

mutual
/-- `processItems`, non-array branch: `newItem = { ...item, parent };
if (item.children) newItem.children = processItems(item.children, newItem)`.
The children are processed with the node itself as parent. -/
def processOne (parent : Option String) : TreeItem → PTree
  | .mk i n c none => .mk i n c parent none
  | .mk i n c (some cs) => .mk i n c parent (some (processList (some i) cs))

/-- `processItems`, array branch: `items.map((item) => ...)`. -/
def processList (parent : Option String) : List TreeItem → List PTree
  | [] => []
  | t :: ts => processOne parent t :: processList parent ts

end

/-- Top-level `processItems(data)` (no parent for roots). -/
def processItems : TreeData → PData
  | .single t => .single (processOne none t)
  | .many ts => .many (processList none ts)

mutual
/-- `flattenTree`, non-array branch: record `(items.id, items)` then recurse
into the children when present.  The JS object assignment
`flatData[items.id] = items` is modelled by emitting the entries in
program order; `flatLookup` below applies the final-assignment-wins
semantics of a JS object. -/
def flattenOne : PTree → List (String × PTree)
  | .mk i n c p none => [(i, .mk i n c p none)]
  | .mk i n c p (some cs) => (i, .mk i n c p (some cs)) :: flattenList cs

/-- `flattenTree`, array branch: `items.forEach((item) => flattenTree(item))`. -/
def flattenList : List PTree → List (String × PTree)
  | [] => []
  | t :: ts => flattenOne t ++ flattenList ts

end

/-- `flatNodePointers`: the flat id-to-node index. -/
def flattenTree : PData → List (String × PTree)
  | .single t => flattenOne t
  | .many ts => flattenList ts

/-- Lookup in the flat index; the latest entry for a key wins, matching
repeated assignment into a JS object. -/
def flatLookup (entries : List (String × PTree)) (key : String) : Option PTree :=
  match entries with
  | [] => none
  | (k, v) :: rest =>
    match flatLookup rest key with
    | some r => some r
    | none => if k = key then some v else none

/-- Component state owned by `TreeView`. -/
structure TreeState where
  selectedItemId : Option String
  expandedItems : List String
deriving DecidableEq

/-- `handleToggleExpand`: append the id when expanding, filter out every
occurrence when collapsing. -/
def handleToggleExpand (prev : List String) (itemId : String) (isExpanded : Bool) :
    List String :=
  if isExpanded then prev ++ [itemId] else prev.filter (fun id => id != itemId)

/-- State effect of `handleSelectChange`: `setSelectedItemId(item?.id)`.
The `onSelectChange` callback invocation is modelled by
`handleSelectChange` further below. -/
def handleSelectChangeState (s : TreeState) (item : Option PTree) : TreeState :=
  { s with selectedItemId := item.map PTree.id }

mutual
/-- `collectNodes`, non-array branch: push the node, and when it has a
`children` field and its id is in `expandedItems`, recurse into the
children. -/
def collectOne (expandedItems : List String) : PTree → List PTree
  | .mk i n c p none => [.mk i n c p none]
  | .mk i n c p (some cs) =>
    .mk i n c p (some cs) ::
      (if expandedItems.contains i then collectList expandedItems cs else [])

/-- `collectNodes`, array branch. -/
def collectList (expandedItems : List String) : List PTree → List PTree
  | [] => []
  | t :: ts => collectOne expandedItems t ++ collectList expandedItems ts

end

/-- The flattened, visibility-aware node list built on each key event. -/
def collectNodes (expandedItems : List String) : PData → List PTree
  | .single t => collectOne expandedItems t
  | .many ts => collectList expandedItems ts

/-- The keys the keyboard handler distinguishes; `other` stands for every
key the switch statement ignores. -/
inductive Key : Type where
  | arrowDown
  | arrowUp
  | arrowRight
  | arrowLeft
  | other

/-- `handleTreeKeyboardNavigation`, state effect.  Guards in source order:
no selection, id missing from the flat index, selection not found in the
visible list; then the switch on the key.  In the ArrowLeft branch the
source passes the parent node to `handleSelectChange`, which stores
`parent.id`; here the parent back-reference already is that id. -/
def handleTreeKeyboardNavigation (d : TreeData) (key : Key) (s : TreeState) :
    TreeState :=
  match s.selectedItemId with
  | none => s
  | some selectedItemId =>
    match flatLookup (flattenTree (processItems d)) selectedItemId with
    | none => s
    | some currentNode =>
      let allNodes := collectNodes s.expandedItems (processItems d)
      match allNodes.findIdx? (fun node => node.id == selectedItemId) with
      | none => s
      | some currentIndex =>
        match key with
        | .arrowDown =>
          if currentIndex < allNodes.length - 1 then
            handleSelectChangeState s allNodes[currentIndex + 1]?
          else s
        | .arrowUp =>
          if currentIndex > 0 then
            handleSelectChangeState s allNodes[currentIndex - 1]?
          else s
        | .arrowRight =>
          match currentNode.children with
          | some cs =>
            if cs.length > 0 then
              if !(s.expandedItems.contains currentNode.id) then
                { s with expandedItems :=
                    handleToggleExpand s.expandedItems currentNode.id true }
              else
                handleSelectChangeState s cs.head?
            else s
          | none => s
        | .arrowLeft =>
          if s.expandedItems.contains currentNode.id then
            { s with expandedItems :=
                handleToggleExpand s.expandedItems currentNode.id false }
          else
            match currentNode.parent with
            | some p => { s with selectedItemId := some p }
            | none => s
        | .other => s

/-- Observable callback invocations. -/
inductive UIEvent : Type where
  | selectChange (item : Option PTree)
  | itemClick (item : PTree)

/-- `handleSelectChange` with its callback: set the selected id, then
invoke `onSelectChange(item)` when the prop is registered. -/
def handleSelectChange (hasOnSelectChange : Bool) (s : TreeState)
    (item : Option PTree) : TreeState × List UIEvent :=
  ({ s with selectedItemId := item.map PTree.id },
   if hasOnSelectChange then [UIEvent.selectChange item] else [])

/-- The row click handler shared by `TreeNode` and `TreeLeaf`:
`handleSelectChange(item); item.onClick?.()`. -/
def treeItemClick (hasOnSelectChange : Bool) (s : TreeState) (item : PTree) :
    TreeState × List UIEvent :=
  let r := handleSelectChange hasOnSelectChange s (some item)
  (r.1, r.2 ++ (if item.hasOnClick then [UIEvent.itemClick item] else []))

/-- `handleDrop`: invoke `onDocumentDrag(draggedItem, targetItem)` exactly
when a drag source exists, the callback prop is registered and the ids
differ; always reset the drag source to `null`.  First component: the
callback invocation (with its arguments) if any; second component: the
new `draggedItem` state. -/
def handleDrop (draggedItem : Option PTree) (hasOnDocumentDrag : Bool)
    (targetItem : PTree) : Option (PTree × PTree) × Option PTree :=
  match draggedItem with
  | some src =>
    if hasOnDocumentDrag && (src.id != targetItem.id) then
      (some (src, targetItem), none)
    else (none, none)
  | none => (none, none)

mutual
/-- `walkTreeItems`, non-array branch.  Returns `some ids` when the target
was found, where `ids` is the sequence of `ids.push` calls performed, in
order; `none` when not found (no pushes happen on failing paths).
Finding the target at the node itself pushes nothing; finding it below
pushes the node's own id after the pushes of the recursive call. -/
def walkOne (targetId : String) : PTree → Option (List String)
  | .mk i _ _ _ ch =>
    if i = targetId then some []
    else
      match ch with
      | some cs =>
        match walkList targetId cs with
        | some ids => some (ids ++ [i])
        | none => none
      | none => none

/-- `walkTreeItems`, array branch: the first element whose subtree contains
the target gets its id pushed after the recursive call's pushes. -/
def walkList (targetId : String) : List PTree → Option (List String)
  | [] => none
  | t :: ts =>
    match walkOne targetId t with
    | some ids => some (ids ++ [t.id])
    | none => walkList targetId ts

end

/-- Top-level `walkTreeItems(processedData, initialSelectedItemId)`. -/
def walkTreeItems (targetId : String) : PData → Option (List String)
  | .single t => walkOne targetId t
  | .many ts => walkList targetId ts

/-- The mount effect: starting from the empty initial `expandedItems`,
return early when no initial id is supplied or `expandAll` is set;
otherwise run the walk and store the collected ids when nonempty. -/
def mountExpandedItems (initialSelectedItemId : Option String)
    (expandAll : Bool) (d : TreeData) : List String :=
  match initialSelectedItemId with
  | none => []
  | some target =>
    if expandAll then []
    else
      match walkTreeItems target (processItems d) with
      | some ids => if ids.length > 0 then ids else []
      | none => []

/-- `syncExpandCollapseState` in `TreeNode`: the accordion reports its open
values; toggle only when the node's openness changed relative to
`expandedItems`. -/
def syncExpandCollapseState (expandedItems : List String) (itemId : String)
    (values : List String) : List String :=
  let isExpanded := expandedItems.contains itemId
  let newIsExpanded := values.contains itemId
  if newIsExpanded ≠ isExpanded then
    handleToggleExpand expandedItems itemId newIsExpanded
  else expandedItems

/-! Definitions written from the spec's words, for comparison with the
source functions above (refinement).  Names carry the `spec` prefix. -/

mutual
/-- Modelled from the spec: the path of ids from a root down to the node
with the target id, the target included, following the same first-match
depth-first search order as the source walk; single-node version. -/
def specPathOne (targetId : String) : PTree → Option (List String)
  | .mk i _ _ _ ch =>
    if i = targetId then some [i]
    else
      match ch with
      | some cs =>
        match specPathList targetId cs with
        | some p => some (i :: p)
        | none => none
      | none => none

/-- Modelled from the spec: root-to-target id path, forest version. -/
def specPathList (targetId : String) : List PTree → Option (List String)
  | [] => none
  | t :: ts =>
    match specPathOne targetId t with
    | some p => some p
    | none => specPathList targetId ts

end

mutual
/-- Modelled from the spec: the ids occurring in the caller's input, in
depth-first order; single-item version. -/
def specIdsOne : TreeItem → List String
  | .mk i _ _ none => [i]
  | .mk i _ _ (some cs) => i :: specIdsList cs

/-- Modelled from the spec: ids of a forest of input items. -/
def specIdsList : List TreeItem → List String
  | [] => []
  | t :: ts => specIdsOne t ++ specIdsList ts

end

/-- Modelled from the spec: all ids occurring in the `data` prop. -/
def specIds : TreeData → List String
  | .single t => specIdsOne t
  | .many ts => specIdsList ts

mutual
/-- Modelled from the spec: the parent assignment the spec demands — every
node is paired with the id of the node under which it was nested in the
input (`none` for a node at the root level); single-item version, given
the enclosing node's id. -/
def specParentEdgesOne (parent : Option String) : TreeItem → List (String × Option String)
  | .mk i _ _ none => [(i, parent)]
  | .mk i _ _ (some cs) => (i, parent) :: specParentEdgesList (some i) cs

/-- Modelled from the spec: parent assignment for a list of siblings. -/
def specParentEdgesList (parent : Option String) : List TreeItem → List (String × Option String)
  | [] => []
  | t :: ts => specParentEdgesOne parent t ++ specParentEdgesList parent ts

end

/-- Modelled from the spec: parent assignment for the whole `data` prop. -/
def specParentEdges : TreeData → List (String × Option String)
  | .single t => specParentEdgesOne none t
  | .many ts => specParentEdgesList none ts

mutual
/-- Forget the parent back-references of a processed node, recovering the
input item; used to state that `processItems` produces a structurally
equivalent tree. -/
def eraseOne : PTree → TreeItem
  | .mk i n c _ none => .mk i n c none
  | .mk i n c _ (some cs) => .mk i n c (some (eraseList cs))

/-- Forget parent back-references, list version. -/
def eraseList : List PTree → List TreeItem
  | [] => []
  | t :: ts => eraseOne t :: eraseList ts

end

/-- Forget parent back-references of the whole processed data. -/
def eraseData : PData → TreeData
  | .single t => .single (eraseOne t)
  | .many ts => .many (eraseList ts)

/-- The duplication pattern the walk produces along a found path
`[root, ..., target]`: the target contributes nothing here, and every
proper ancestor `a` with child `b` on the path contributes `[b, a]`,
innermost first. -/
def dupPath : List String → List String
  | [] => []
  | [_] => []
  | x :: y :: rest => dupPath (y :: rest) ++ [y, x]

/-- What `walkTreeItems` returns on a found path `p`: `dupPath p` followed
by one extra copy of the root (pushed by the top-level array branch). -/
def dupWalk (p : List String) : List String := dupPath p ++ p.take 1

/-! Concrete inputs used by counterexamples and witnesses. -/

/-- A leaf item without callbacks. -/
def leafI (i : String) : TreeItem := .mk i i false none

/-- A branch item with the given children. -/
def branchI (i : String) (cs : List TreeItem) : TreeItem := .mk i i false (some cs)

/-- The forest `A{B{D,E},C}` from the spec's keyboard scenario. -/
def exData : TreeData :=
  .many [branchI "A" [branchI "B" [leafI "D", leafI "E"], leafI "C"]]

/-- A chain `A{B{D}}` used for the mount-walk analysis. -/
def exChain : TreeData := .many [branchI "A" [branchI "B" [leafI "D"]]]

/-- A single node with a present-but-empty children list. -/
def exEmptyChildren : TreeData := .many [branchI "N" []]

/-! Claim theorems. -/

/-- C5: the drop handler invokes the drop callback with
(sourceItem, targetItem) iff a drag source exists, the callback prop is
registered and the source id differs from the target id; the drag-source
state is reset to none in every case; self-drop never invokes the
callback. -/
theorem c5_handleDrop_spec (draggedItem : Option PTree) (hasCb : Bool)
    (targetItem : PTree) :
    (handleDrop draggedItem hasCb targetItem).2 = none
    ∧ ((handleDrop draggedItem hasCb targetItem).1.isSome ↔
        ∃ src, draggedItem = some src ∧ hasCb = true ∧ src.id ≠ targetItem.id)
    ∧ (∀ src, draggedItem = some src → hasCb = true → src.id ≠ targetItem.id →
        (handleDrop draggedItem hasCb targetItem).1 = some (src, targetItem))
    ∧ (handleDrop (some targetItem) hasCb targetItem).1 = none := by
  refine ⟨?_, ?_, ?_, ?_⟩
  · cases draggedItem with
    | none => rfl
    | some src =>
      simp only [handleDrop]
      split <;> rfl
  · cases draggedItem with
    | none => simp [handleDrop]
    | some src =>
      simp only [handleDrop]
      by_cases h : hasCb = true ∧ src.id ≠ targetItem.id
      · obtain ⟨h1, h2⟩ := h
        simp [h1, h2, bne_iff_ne]
      · rw [not_and_or] at h
        rcases h with h | h
        · simp at h
          simp [h]
        · simp at h
          simp [h]
  · intro src hsrc hcb hne
    subst hsrc
    simp [handleDrop, hcb, bne_iff_ne, hne]
  · simp [handleDrop]

/-- C5 witness: a drop with a registered callback, a live drag source and
distinct ids invokes the callback with the source and target, and the
drag state is cleared. -/
theorem c5_handleDrop_witness :
    (handleDrop (some (processOne none (leafI "X"))) true (processOne none (leafI "Y"))).1
        = some (processOne none (leafI "X"), processOne none (leafI "Y"))
    ∧ (handleDrop (some (processOne none (leafI "X"))) true (processOne none (leafI "Y"))).2
        = none := by
  refine ⟨?_, ?_⟩
  · exact (c5_handleDrop_spec (some (processOne none (leafI "X"))) true
      (processOne none (leafI "Y"))).2.2.1 _ rfl rfl (by decide)
  · exact (c5_handleDrop_spec (some (processOne none (leafI "X"))) true
      (processOne none (leafI "Y"))).1

/-- C6: clicking an item sets `selectedItemId` to its id and produces the
selection-change notification (with the item) strictly before the
item-local `onClick` invocation; deselecting through `handleSelectChange`
with none clears the selection and notifies with none. -/
theorem c6_select_before_click (hasCb : Bool) (s : TreeState) (item : PTree) :
    (treeItemClick hasCb s item).1.selectedItemId = some item.id
    ∧ (treeItemClick hasCb s item).2 =
        (if hasCb then [UIEvent.selectChange (some item)] else [])
          ++ (if item.hasOnClick then [UIEvent.itemClick item] else [])
    ∧ (hasCb = true → item.hasOnClick = true →
        (treeItemClick hasCb s item).2 =
          [UIEvent.selectChange (some item), UIEvent.itemClick item])
    ∧ (handleSelectChange hasCb s none).1.selectedItemId = none
    ∧ (handleSelectChange hasCb s none).2 =
        (if hasCb then [UIEvent.selectChange none] else []) := by
  refine ⟨rfl, rfl, ?_, rfl, rfl⟩
  intro h1 h2
  simp [treeItemClick, handleSelectChange, h1, h2]

/-- C6 witness: with both callbacks present, the event list is exactly the
selection change followed by the item click. -/
theorem c6_select_before_click_witness :
    (treeItemClick true ⟨none, []⟩ (PTree.mk "X" "X" true none none)).2 =
      [UIEvent.selectChange (some (PTree.mk "X" "X" true none none)),
       UIEvent.itemClick (PTree.mk "X" "X" true none none)] :=
  (c6_select_before_click true ⟨none, []⟩ (PTree.mk "X" "X" true none none)).2.2.1
    rfl rfl

/-- C8: the model builder is deterministic: on the same input data it
yields the same flat-index key list and the same parent-link structure.
Freedom from side effects holds by construction in this embedding, since
`processItems` and `flattenTree` are pure functions. -/
theorem c8_model_builder_deterministic (d1 d2 : TreeData) (h : d1 = d2) :
    (flattenTree (processItems d1)).map Prod.fst
        = (flattenTree (processItems d2)).map Prod.fst
    ∧ (flattenTree (processItems d1)).map (fun e => (e.1, e.2.parent))
        = (flattenTree (processItems d2)).map (fun e => (e.1, e.2.parent)) := by
  subst h
  exact ⟨rfl, rfl⟩

/-- C8 witness: instance at a concrete forest. -/
theorem c8_model_builder_deterministic_witness :
    (flattenTree (processItems exChain)).map Prod.fst
        = (flattenTree (processItems exChain)).map Prod.fst
    ∧ (flattenTree (processItems exChain)).map (fun e => (e.1, e.2.parent))
        = (flattenTree (processItems exChain)).map (fun e => (e.1, e.2.parent)) :=
  c8_model_builder_deterministic exChain exChain rfl

/-- C10: when nothing is selected, or the selected id is missing from the
flat index, or no visible node carries the selected id, every key leaves
both the selection and the expansion set unchanged. -/
theorem c10_guards_no_change (d : TreeData) (k : Key) (s : TreeState) :
    (s.selectedItemId = none → handleTreeKeyboardNavigation d k s = s)
    ∧ (∀ sel, s.selectedItemId = some sel →
        flatLookup (flattenTree (processItems d)) sel = none →
        handleTreeKeyboardNavigation d k s = s)
    ∧ (∀ sel, s.selectedItemId = some sel →
        (∀ n ∈ collectNodes s.expandedItems (processItems d), n.id ≠ sel) →
        handleTreeKeyboardNavigation d k s = s) := by
  refine ⟨?_, ?_, ?_⟩
  · intro h
    simp [handleTreeKeyboardNavigation, h]
  · intro sel h1 h2
    simp [handleTreeKeyboardNavigation, h1, h2]
  · intro sel h1 h2
    have hnone : (collectNodes s.expandedItems (processItems d)).findIdx?
        (fun node => node.id == sel) = none := by
      rw [List.findIdx?_eq_none_iff]
      intro n hn
      simp [h2 n hn]
    simp only [handleTreeKeyboardNavigation, h1, hnone]
    split <;> rfl

/-- C10 witness: with no selection, ArrowDown is a no-op on a concrete
forest. -/
theorem c10_guards_no_change_witness :
    handleTreeKeyboardNavigation exChain Key.arrowDown ⟨none, []⟩ = ⟨none, []⟩ :=
  (c10_guards_no_change exChain Key.arrowDown ⟨none, []⟩).1 rfl

/-- Shared unfolding of the keyboard handler once the three guards have
passed: the selection exists, the flat index resolves it, and it occurs
in the visible list. -/
theorem keyNav_eq (d : TreeData) (k : Key) (s : TreeState) (sel : String)
    (cn : PTree) (i : Nat)
    (h1 : s.selectedItemId = some sel)
    (h2 : flatLookup (flattenTree (processItems d)) sel = some cn)
    (h3 : (collectNodes s.expandedItems (processItems d)).findIdx?
        (fun node => node.id == sel) = some i) :
    handleTreeKeyboardNavigation d k s =
      (match k with
       | .arrowDown =>
         if i < (collectNodes s.expandedItems (processItems d)).length - 1 then
           handleSelectChangeState s (collectNodes s.expandedItems (processItems d))[i + 1]?
         else s
       | .arrowUp =>
         if i > 0 then
           handleSelectChangeState s (collectNodes s.expandedItems (processItems d))[i - 1]?
         else s
       | .arrowRight =>
         match cn.children with
         | some cs =>
           if cs.length > 0 then
             if !(s.expandedItems.contains cn.id) then
               { s with expandedItems :=
                   handleToggleExpand s.expandedItems cn.id true }
             else handleSelectChangeState s cs.head?
           else s
         | none => s
       | .arrowLeft =>
         if s.expandedItems.contains cn.id then
           { s with expandedItems :=
               handleToggleExpand s.expandedItems cn.id false }
         else
           match cn.parent with
           | some p => { s with selectedItemId := some p }
           | none => s
       | .other => s) := by
  simp only [handleTreeKeyboardNavigation, h1, h2, h3]

/-- C2 counterexample: the node "N" has a present children field (the
empty list) and is not in the expansion set, yet ArrowRight changes
nothing — the source additionally requires `children.length > 0`, so the
claimed expansion does not happen. -/
theorem c2_counterexample :
    (flatLookup (flattenTree (processItems exEmptyChildren)) "N").map PTree.children
        = some (some [])
    ∧ handleTreeKeyboardNavigation exEmptyChildren Key.arrowRight ⟨some "N", []⟩
        = ⟨some "N", []⟩
    ∧ "N" ∉ (handleTreeKeyboardNavigation exEmptyChildren Key.arrowRight
        ⟨some "N", []⟩).expandedItems := by
  refine ⟨rfl, by decide, by decide⟩

/-- C2 amended: ArrowRight on a selected node with a nonempty children
list expands it when collapsed (leaving the selection unchanged) and
moves the selection to the first child when already expanded (leaving the
expansion set unchanged); on a node whose children field is absent or
present but empty, nothing changes. -/
theorem c2_arrowRight_amended (d : TreeData) (s : TreeState) (sel : String)
    (cn : PTree) (i : Nat)
    (h1 : s.selectedItemId = some sel)
    (h2 : flatLookup (flattenTree (processItems d)) sel = some cn)
    (h3 : (collectNodes s.expandedItems (processItems d)).findIdx?
        (fun node => node.id == sel) = some i) :
    (∀ c cs, cn.children = some (c :: cs) →
       (s.expandedItems.contains cn.id = false →
          handleTreeKeyboardNavigation d Key.arrowRight s
            = { s with expandedItems := s.expandedItems ++ [cn.id] })
       ∧ (s.expandedItems.contains cn.id = true →
          handleTreeKeyboardNavigation d Key.arrowRight s
            = { s with selectedItemId := some c.id }))
    ∧ (cn.children = none →
        handleTreeKeyboardNavigation d Key.arrowRight s = s)
    ∧ (cn.children = some [] →
        handleTreeKeyboardNavigation d Key.arrowRight s = s) := by
  rw [keyNav_eq d Key.arrowRight s sel cn i h1 h2 h3]
  refine ⟨?_, ?_, ?_⟩
  · intro c cs hch
    constructor
    · intro hc
      have hm : cn.id ∉ s.expandedItems := by simpa using hc
      simp [hch, hc, hm, handleToggleExpand]
    · intro hc
      have hm : cn.id ∈ s.expandedItems := by simpa using hc
      simp [hch, hc, hm, handleSelectChangeState]
  · intro hch
    simp [hch]
  · intro hch
    simp [hch]

/-- C2 witness: ArrowRight on the collapsed branch root "A" of the chain
adds "A" to the expansion set and keeps the selection. -/
theorem c2_arrowRight_witness :
    handleTreeKeyboardNavigation exChain Key.arrowRight ⟨some "A", []⟩
      = ⟨some "A", ["A"]⟩ := by
  have h := ((c2_arrowRight_amended exChain ⟨some "A", []⟩ "A"
      (processOne none (branchI "A" [branchI "B" [leafI "D"]])) 0
      rfl rfl rfl).1
      (processOne (some "A") (branchI "B" [leafI "D"])) [] rfl).1 rfl
  exact h

/-- C4: ArrowLeft on a selected node collapses it when its id is in the
expansion set (selection unchanged); otherwise moves the selection to the
parent when one exists (expansion set unchanged); otherwise — a collapsed
root — changes nothing. -/
theorem c4_arrowLeft_spec (d : TreeData) (s : TreeState) (sel : String)
    (cn : PTree) (i : Nat)
    (h1 : s.selectedItemId = some sel)
    (h2 : flatLookup (flattenTree (processItems d)) sel = some cn)
    (h3 : (collectNodes s.expandedItems (processItems d)).findIdx?
        (fun node => node.id == sel) = some i) :
    (s.expandedItems.contains cn.id = true →
       handleTreeKeyboardNavigation d Key.arrowLeft s
         = { s with expandedItems :=
               s.expandedItems.filter (fun x => x != cn.id) })
    ∧ (s.expandedItems.contains cn.id = false →
        (∀ p, cn.parent = some p →
           handleTreeKeyboardNavigation d Key.arrowLeft s
             = { s with selectedItemId := some p })
        ∧ (cn.parent = none →
           handleTreeKeyboardNavigation d Key.arrowLeft s = s)) := by
  rw [keyNav_eq d Key.arrowLeft s sel cn i h1 h2 h3]
  refine ⟨?_, ?_⟩
  · intro hc
    have hm : cn.id ∈ s.expandedItems := by simpa using hc
    simp [hc, hm, handleToggleExpand]
  · intro hc
    have hm : cn.id ∉ s.expandedItems := by simpa using hc
    constructor
    · intro p hp
      simp [hc, hm, hp]
    · intro hp
      simp [hc, hm, hp]

/-- C4 witness: ArrowLeft on the expanded root "A" collapses it without
moving the selection; ArrowLeft on the collapsed child "B" (with "A"
expanded so "B" is visible) moves the selection to "A". -/
theorem c4_arrowLeft_witness :
    handleTreeKeyboardNavigation exChain Key.arrowLeft ⟨some "A", ["A"]⟩
      = ⟨some "A", []⟩
    ∧ handleTreeKeyboardNavigation exChain Key.arrowLeft ⟨some "B", ["A"]⟩
      = ⟨some "A", ["A"]⟩ := by
  constructor
  · have h := (c4_arrowLeft_spec exChain ⟨some "A", ["A"]⟩ "A"
        (processOne none (branchI "A" [branchI "B" [leafI "D"]])) 0
        rfl rfl rfl).1 rfl
    exact h.trans (by decide)
  · have h := ((c4_arrowLeft_spec exChain ⟨some "B", ["A"]⟩ "B"
        (processOne (some "A") (branchI "B" [leafI "D"])) 1
        rfl rfl rfl).2 rfl).1 "A" rfl
    exact h

/-- C3 counterexample: in the tree `A{B{D,E},C}` with expansion set
exactly ["B"] and "A" selected, A's children are not visible (A itself is
collapsed), so the first ArrowDown leaves the selection at "A" instead of
moving it to "B" as the claimed scenario demands. -/
theorem c3_counterexample :
    (handleTreeKeyboardNavigation exData Key.arrowDown
        ⟨some "A", ["B"]⟩).selectedItemId = some "A"
    ∧ (handleTreeKeyboardNavigation exData Key.arrowDown
        ⟨some "A", ["B"]⟩).selectedItemId ≠ some "B" := by
  refine ⟨by decide, by decide⟩

/-- C3 amended: ArrowDown and ArrowUp select the successor respectively
predecessor of the current position in the visible list and are no-ops at
the boundaries; the spec's scenario on `A{B{D,E},C}` holds once both A
and B are expanded (so that B and its children are visible): Down, Down,
Down, Up from "A" selects "B", "D", "E", "D". -/
theorem c3_arrows_amended (d : TreeData) (s : TreeState) (sel : String)
    (cn : PTree) (i : Nat)
    (h1 : s.selectedItemId = some sel)
    (h2 : flatLookup (flattenTree (processItems d)) sel = some cn)
    (h3 : (collectNodes s.expandedItems (processItems d)).findIdx?
        (fun node => node.id == sel) = some i) :
    (i < (collectNodes s.expandedItems (processItems d)).length - 1 →
       handleTreeKeyboardNavigation d Key.arrowDown s
         = { s with selectedItemId :=
             ((collectNodes s.expandedItems (processItems d))[i + 1]?).map PTree.id })
    ∧ (¬ i < (collectNodes s.expandedItems (processItems d)).length - 1 →
       handleTreeKeyboardNavigation d Key.arrowDown s = s)
    ∧ (0 < i →
       handleTreeKeyboardNavigation d Key.arrowUp s
         = { s with selectedItemId :=
             ((collectNodes s.expandedItems (processItems d))[i - 1]?).map PTree.id })
    ∧ (i = 0 → handleTreeKeyboardNavigation d Key.arrowUp s = s)
    ∧ ((handleTreeKeyboardNavigation exData Key.arrowDown
          ⟨some "A", ["A", "B"]⟩).selectedItemId = some "B"
       ∧ (handleTreeKeyboardNavigation exData Key.arrowDown
          ⟨some "B", ["A", "B"]⟩).selectedItemId = some "D"
       ∧ (handleTreeKeyboardNavigation exData Key.arrowDown
          ⟨some "D", ["A", "B"]⟩).selectedItemId = some "E"
       ∧ (handleTreeKeyboardNavigation exData Key.arrowUp
          ⟨some "E", ["A", "B"]⟩).selectedItemId = some "D") := by
  refine ⟨?_, ?_, ?_, ?_, by decide, by decide, by decide, by decide⟩
  · intro hlt
    rw [keyNav_eq d Key.arrowDown s sel cn i h1 h2 h3]
    simp [hlt, handleSelectChangeState]
  · intro hlt
    rw [keyNav_eq d Key.arrowDown s sel cn i h1 h2 h3]
    simp [hlt]
  · intro hpos
    rw [keyNav_eq d Key.arrowUp s sel cn i h1 h2 h3]
    simp [hpos, handleSelectChangeState]
  · intro hz
    rw [keyNav_eq d Key.arrowUp s sel cn i h1 h2 h3]
    simp [hz]

/-- C3 witness: the general successor rule applied at the amended concrete
scenario: from "A" with A and B expanded, ArrowDown selects "B", the
element after "A" in the visible list. -/
theorem c3_arrows_witness :
    handleTreeKeyboardNavigation exData Key.arrowDown ⟨some "A", ["A", "B"]⟩
      = { selectedItemId := some "B", expandedItems := ["A", "B"] } := by
  have h := (c3_arrows_amended exData ⟨some "A", ["A", "B"]⟩ "A"
      (processOne none (branchI "A" [branchI "B" [leafI "D", leafI "E"], leafI "C"]))
      0 rfl rfl rfl).1 (by decide)
  exact h.trans (by decide)


/-- The keyboard handler is the identity when nothing is selected. -/
theorem keyNav_noSelection (d : TreeData) (k : Key) (s : TreeState)
    (h : s.selectedItemId = none) : handleTreeKeyboardNavigation d k s = s := by
  simp [handleTreeKeyboardNavigation, h]

/-- The keyboard handler is the identity when the selected id is missing
from the flat index. -/
theorem keyNav_lookupFail (d : TreeData) (k : Key) (s : TreeState) (sel : String)
    (h1 : s.selectedItemId = some sel)
    (h2 : flatLookup (flattenTree (processItems d)) sel = none) :
    handleTreeKeyboardNavigation d k s = s := by
  simp [handleTreeKeyboardNavigation, h1, h2]

/-- The keyboard handler is the identity when the selected id does not
occur in the visible node list. -/
theorem keyNav_findFail (d : TreeData) (k : Key) (s : TreeState) (sel : String)
    (h1 : s.selectedItemId = some sel)
    (h3 : (collectNodes s.expandedItems (processItems d)).findIdx?
        (fun node => node.id == sel) = none) :
    handleTreeKeyboardNavigation d k s = s := by
  simp only [handleTreeKeyboardNavigation, h1, h3]
  split <;> rfl

/-- Every run of the keyboard handler changes the expansion list in one of
three ways: not at all, by appending an id that was absent, or by
filtering an id out. -/
theorem keyNav_expandedItems_cases (d : TreeData) (k : Key) (s : TreeState) :
    (handleTreeKeyboardNavigation d k s).expandedItems = s.expandedItems
    ∨ (∃ x, s.expandedItems.contains x = false
        ∧ (handleTreeKeyboardNavigation d k s).expandedItems
            = s.expandedItems ++ [x])
    ∨ (∃ x, (handleTreeKeyboardNavigation d k s).expandedItems
        = s.expandedItems.filter (fun y => y != x)) := by
  cases hsel : s.selectedItemId with
  | none => exact Or.inl (by rw [keyNav_noSelection d k s hsel])
  | some sel =>
    cases hlook : flatLookup (flattenTree (processItems d)) sel with
    | none => exact Or.inl (by rw [keyNav_lookupFail d k s sel hsel hlook])
    | some cn =>
      cases hidx : (collectNodes s.expandedItems (processItems d)).findIdx?
          (fun node => node.id == sel) with
      | none => exact Or.inl (by rw [keyNav_findFail d k s sel hsel hidx])
      | some i =>
        rw [keyNav_eq d k s sel cn i hsel hlook hidx]
        cases k with
        | arrowDown =>
          dsimp only
          split
          · exact Or.inl rfl
          · exact Or.inl rfl
        | arrowUp =>
          dsimp only
          split
          · exact Or.inl rfl
          · exact Or.inl rfl
        | arrowRight =>
          dsimp only
          cases hch : cn.children with
          | none => exact Or.inl rfl
          | some cs =>
            dsimp only
            split
            · by_cases hc : s.expandedItems.contains cn.id
              · simp only [hc, Bool.not_true, Bool.false_eq_true, if_false]
                exact Or.inl rfl
              · simp only [Bool.not_eq_true] at hc
                simp only [hc, Bool.not_false, if_true]
                exact Or.inr (Or.inl ⟨cn.id, hc, by simp [handleToggleExpand]⟩)
            · exact Or.inl rfl
        | arrowLeft =>
          dsimp only
          by_cases hc : s.expandedItems.contains cn.id
          · simp only [hc, if_true]
            exact Or.inr (Or.inr ⟨cn.id, by simp [handleToggleExpand]⟩)
          · simp only [Bool.not_eq_true] at hc
            simp only [hc, Bool.false_eq_true, if_false]
            cases cn.parent with
            | none => exact Or.inl rfl
            | some p => exact Or.inl rfl
        | other => exact Or.inl rfl

/-- C9 counterexample: the mount-time walk does not produce a
duplicate-free list — for the chain `A{B{D}}` with initial selection "D"
it stores ["D","B","B","A","A"], which has duplicates, so the expansion
list does not always denote a set. -/
theorem c9_counterexample :
    mountExpandedItems (some "D") false exChain = ["D", "B", "B", "A", "A"]
    ∧ ¬ (mountExpandedItems (some "D") false exChain).Nodup := by
  refine ⟨by decide, by decide⟩

/-- C9 amended: the event-driven mutations of the expansion list do
preserve duplicate-freedom — the guarded expand/collapse toggle
(`syncExpandCollapseState`, which appends only after the inclusion check
fails, and otherwise removes all occurrences) and the keyboard handler
(whose ArrowRight appends only when absent and whose ArrowLeft filters) —
but the mount-time walk does not: it stores the target id once and every
non-root ancestor twice, so the invariant only holds for states reachable
without the mount-time initial-selection walk. -/
theorem c9_nodup_amended :
    (∀ (e : List String) (itemId : String) (values : List String),
       e.Nodup → (syncExpandCollapseState e itemId values).Nodup)
    ∧ (∀ (d : TreeData) (k : Key) (s : TreeState),
       s.expandedItems.Nodup →
       (handleTreeKeyboardNavigation d k s).expandedItems.Nodup) := by
  constructor
  · intro e itemId values h
    by_cases hv : itemId ∈ values
    · by_cases he : itemId ∈ e
      · simp [syncExpandCollapseState, hv, he, h]
      · simp [syncExpandCollapseState, hv, he, handleToggleExpand,
          List.nodup_append, h]
    · by_cases he : itemId ∈ e
      · have hvc : values.contains itemId = false := by simpa using hv
        have hec : e.contains itemId = true := by simpa using he
        simp only [syncExpandCollapseState, hvc, hec, ne_eq,
          Bool.false_eq_true, not_false_iff, if_true, handleToggleExpand,
          if_false]
        exact h.filter _
      · simp [syncExpandCollapseState, hv, he, h]
  · intro d k s h
    rcases keyNav_expandedItems_cases d k s with heq | ⟨x, hx, heq⟩ | ⟨x, heq⟩
    · rw [heq]; exact h
    · rw [heq]
      have hm : x ∉ s.expandedItems := by simpa using hx
      simp [List.nodup_append, h, hm]
    · rw [heq]
      exact h.filter _

/-- C9 witness: the toggle and the keyboard handler applied to concrete
duplicate-free states yield duplicate-free states. -/
theorem c9_nodup_witness :
    (syncExpandCollapseState [] "A" ["A"]).Nodup
    ∧ (handleTreeKeyboardNavigation exChain Key.arrowRight
        ⟨some "A", []⟩).expandedItems.Nodup :=
  ⟨c9_nodup_amended.1 [] "A" ["A"] (by decide),
   c9_nodup_amended.2 exChain Key.arrowRight ⟨some "A", []⟩ (by decide)⟩

mutual
/-- Processing then erasing parent links recovers the input item. -/
theorem eraseOne_processOne (parent : Option String) (t : TreeItem) :
    eraseOne (processOne parent t) = t := by
  cases t with
  | mk i n c ch =>
    cases ch with
    | none => simp [processOne, eraseOne]
    | some cs => simp [processOne, eraseOne, eraseList_processList (some i) cs]

/-- Processing then erasing parent links recovers the input list. -/
theorem eraseList_processList (parent : Option String) (ts : List TreeItem) :
    eraseList (processList parent ts) = ts := by
  cases ts with
  | nil => simp [processList, eraseList]
  | cons t ts =>
    simp [processList, eraseList, eraseOne_processOne parent t,
      eraseList_processList parent ts]
end

mutual
/-- The keys of the flat index of a processed item are its input ids. -/
theorem flattenOne_processOne_fst (parent : Option String) (t : TreeItem) :
    (flattenOne (processOne parent t)).map Prod.fst = specIdsOne t := by
  cases t with
  | mk i n c ch =>
    cases ch with
    | none => simp [processOne, flattenOne, specIdsOne]
    | some cs =>
      simp [processOne, flattenOne, specIdsOne,
        flattenList_processList_fst (some i) cs]

/-- The keys of the flat index of a processed list are its input ids. -/
theorem flattenList_processList_fst (parent : Option String) (ts : List TreeItem) :
    (flattenList (processList parent ts)).map Prod.fst = specIdsList ts := by
  cases ts with
  | nil => simp [processList, flattenList, specIdsList]
  | cons t ts =>
    simp [processList, flattenList, specIdsList,
      flattenOne_processOne_fst parent t, flattenList_processList_fst parent ts]
end

mutual
/-- The parent links stored by processing are the nesting structure of the
input item. -/
theorem flattenOne_processOne_parent (parent : Option String) (t : TreeItem) :
    (flattenOne (processOne parent t)).map (fun e => (e.1, e.2.parent))
      = specParentEdgesOne parent t := by
  cases t with
  | mk i n c ch =>
    cases ch with
    | none => simp [processOne, flattenOne, specParentEdgesOne, PTree.parent]
    | some cs =>
      simp only [processOne, flattenOne, List.map_cons,
        flattenList_processList_parent (some i) cs, specParentEdgesOne]
      rfl

/-- The parent links stored by processing a list are the nesting structure
of the input list. -/
theorem flattenList_processList_parent (parent : Option String) (ts : List TreeItem) :
    (flattenList (processList parent ts)).map (fun e => (e.1, e.2.parent))
      = specParentEdgesList parent ts := by
  cases ts with
  | nil => simp [processList, flattenList, specParentEdgesList]
  | cons t ts =>
    simp [processList, flattenList, specParentEdgesList,
      flattenOne_processOne_parent parent t,
      flattenList_processList_parent parent ts]
end

mutual
/-- Every flat-index entry of a node maps a key to a node bearing that
key as its id. -/
theorem flattenOne_key_id (t : PTree) : ∀ e ∈ flattenOne t, e.2.id = e.1 := by
  cases t with
  | mk i n c p ch =>
    cases ch with
    | none =>
      intro e he
      simp [flattenOne] at he
      subst he
      rfl
    | some cs =>
      intro e he
      simp only [flattenOne, List.mem_cons] at he
      rcases he with he | he
      · subst he
        rfl
      · exact flattenList_key_id cs e he

/-- Every flat-index entry of a list maps a key to a node bearing that key
as its id. -/
theorem flattenList_key_id (ts : List PTree) : ∀ e ∈ flattenList ts, e.2.id = e.1 := by
  cases ts with
  | nil => intro e he; simp [flattenList] at he
  | cons t ts =>
    intro e he
    simp only [flattenList, List.mem_append] at he
    rcases he with he | he
    · exact flattenOne_key_id t e he
    · exact flattenList_key_id ts e he
end

/-- C7: for every input (single root or forest, arbitrary depth) the model
builder yields a structurally equivalent tree (erasing the parent links
recovers the input), a flat index whose key list is exactly the list of
ids occurring in the input, parent links that pair every id with the id
of the node it was nested under (none for roots), and every key maps to
the processed node bearing that id. -/
theorem c7_model_builder_spec (d : TreeData) :
    eraseData (processItems d) = d
    ∧ (flattenTree (processItems d)).map Prod.fst = specIds d
    ∧ (flattenTree (processItems d)).map (fun e => (e.1, e.2.parent))
        = specParentEdges d
    ∧ ∀ e ∈ flattenTree (processItems d), e.2.id = e.1 := by
  cases d with
  | single t =>
    exact ⟨by simp [processItems, eraseData, eraseOne_processOne],
      by simp [processItems, flattenTree, specIds, flattenOne_processOne_fst],
      by simp [processItems, flattenTree, specParentEdges,
        flattenOne_processOne_parent],
      fun e he => flattenOne_key_id _ e he⟩
  | many ts =>
    exact ⟨by simp [processItems, eraseData, eraseList_processList],
      by simp [processItems, flattenTree, specIds, flattenList_processList_fst],
      by simp [processItems, flattenTree, specParentEdges,
        flattenList_processList_parent],
      fun e he => flattenList_key_id _ e he⟩

/-- C7 witness: instance at the chain forest, including the key/id fact at
its first flat-index entry. -/
theorem c7_model_builder_witness :
    eraseData (processItems exChain) = exChain
    ∧ ("A", processOne none (branchI "A" [branchI "B" [leafI "D"]])).2.id = "A" :=
  ⟨(c7_model_builder_spec exChain).1,
   (c7_model_builder_spec exChain).2.2.2
     ("A", processOne none (branchI "A" [branchI "B" [leafI "D"]]))
     (List.Mem.head _)⟩

/-- A found spec path starts with the id of the node the search entered. -/
theorem specPathOne_head (targetId : String) (t : PTree) (p : List String)
    (h : specPathOne targetId t = some p) : ∃ q, p = t.id :: q := by
  cases t with
  | mk i n c pr ch =>
    rw [specPathOne.eq_def] at h
    dsimp only at h
    by_cases hi : i = targetId
    · rw [if_pos hi] at h
      exact ⟨[], (Option.some.inj h).symm⟩
    · rw [if_neg hi] at h
      cases ch with
      | none => exact absurd h (by simp)
      | some cs =>
        dsimp only at h
        cases hcs : specPathList targetId cs with
        | none =>
          rw [hcs] at h
          exact absurd h (by simp)
        | some pcs =>
          rw [hcs] at h
          exact ⟨pcs, (Option.some.inj h).symm⟩

/-- A found spec path over a forest is nonempty. -/
theorem specPathList_ne_nil (targetId : String) (ts : List PTree) (p : List String)
    (h : specPathList targetId ts = some p) : p ≠ [] := by
  induction ts with
  | nil => simp [specPathList] at h
  | cons t ts ih =>
    simp only [specPathList] at h
    cases ht : specPathOne targetId t with
    | some q =>
      rw [ht] at h
      obtain ⟨q', hq⟩ := specPathOne_head targetId t q ht
      rw [← Option.some.inj h, hq]
      simp
    | none =>
      rw [ht] at h
      exact ih h

mutual
/-- The walk on a single node returns exactly the duplication pattern of
the spec path: nothing when the node is the target, and the recursive
pushes followed by the node's own id when the target lies below. -/
theorem walkOne_eq_spec (targetId : String) (t : PTree) :
    walkOne targetId t = (specPathOne targetId t).map dupPath := by
  cases t with
  | mk i n c pr ch =>
    rw [walkOne.eq_def, specPathOne.eq_def]
    dsimp only
    by_cases hi : i = targetId
    · rw [if_pos hi, if_pos hi]
      simp [dupPath]
    · rw [if_neg hi, if_neg hi]
      cases ch with
      | none => simp
      | some cs =>
        dsimp only
        rw [walkList_eq_spec targetId cs]
        cases hcs : specPathList targetId cs with
        | none => simp
        | some pcs =>
          have hne := specPathList_ne_nil targetId cs pcs hcs
          cases pcs with
          | nil => exact absurd rfl hne
          | cons y rest =>
            simp only [Option.map_some]
            show some (dupWalk (y :: rest) ++ [i])
              = some (dupPath (i :: y :: rest))
            simp [dupWalk, dupPath, List.take]

/-- The walk on a forest returns the duplication pattern of the spec path
followed by one extra copy of the matching root. -/
theorem walkList_eq_spec (targetId : String) (ts : List PTree) :
    walkList targetId ts = (specPathList targetId ts).map dupWalk := by
  cases ts with
  | nil => simp [walkList, specPathList]
  | cons t ts =>
    rw [walkList.eq_def, specPathList.eq_def]
    dsimp only
    rw [walkOne_eq_spec targetId t]
    cases ht : specPathOne targetId t with
    | none =>
      dsimp only [Option.map_none]
      exact walkList_eq_spec targetId ts
    | some p =>
      obtain ⟨q, hq⟩ := specPathOne_head targetId t p ht
      subst hq
      simp [dupWalk, List.take]
end

/-- Membership in the walk output is membership in the spec path: the
duplication changes multiplicities, not the underlying set. -/
theorem mem_dupWalk (p : List String) (x : String) : x ∈ dupWalk p ↔ x ∈ p := by
  match p with
  | [] => simp [dupWalk, dupPath]
  | [a] => simp [dupWalk, dupPath, List.take]
  | a :: b :: rest =>
    have ih := mem_dupWalk (b :: rest) x
    simp only [dupWalk, dupPath, List.take, List.mem_append, List.mem_cons,
      List.not_mem_nil, or_false] at ih ⊢
    tauto

mutual
/-- A found spec path ends at the target id; single-node version. -/
theorem specPathOne_getLast (targetId : String) (t : PTree) (p : List String)
    (h : specPathOne targetId t = some p) : p.getLast? = some targetId := by
  cases t with
  | mk i n c pr ch =>
    rw [specPathOne.eq_def] at h
    dsimp only at h
    by_cases hi : i = targetId
    · rw [if_pos hi] at h
      rw [← Option.some.inj h, hi]
      rfl
    · rw [if_neg hi] at h
      cases ch with
      | none => exact absurd h (by simp)
      | some cs =>
        dsimp only at h
        cases hcs : specPathList targetId cs with
        | none =>
          rw [hcs] at h
          exact absurd h (by simp)
        | some pcs =>
          rw [hcs] at h
          have hlast := specPathList_getLast targetId cs pcs hcs
          have hne := specPathList_ne_nil targetId cs pcs hcs
          rw [← Option.some.inj h]
          cases pcs with
          | nil => exact absurd rfl hne
          | cons y rest => rw [List.getLast?_cons_cons]; exact hlast

/-- A found spec path ends at the target id; forest version. -/
theorem specPathList_getLast (targetId : String) (ts : List PTree) (p : List String)
    (h : specPathList targetId ts = some p) : p.getLast? = some targetId := by
  cases ts with
  | nil => simp [specPathList] at h
  | cons t ts =>
    rw [specPathList.eq_def] at h
    dsimp only at h
    cases ht : specPathOne targetId t with
    | some q =>
      rw [ht] at h
      exact (Option.some.inj h) ▸ specPathOne_getLast targetId t q ht
    | none =>
      rw [ht] at h
      exact specPathList_getLast targetId ts p h
end

mutual
/-- The spec search fails on a node exactly when the target id occurs
nowhere in that node's flat index. -/
theorem specPathOne_none_iff (targetId : String) (t : PTree) :
    specPathOne targetId t = none ↔ targetId ∉ (flattenOne t).map Prod.fst := by
  cases t with
  | mk i n c pr ch =>
    rw [specPathOne.eq_def]
    dsimp only
    by_cases hi : i = targetId
    · rw [if_pos hi]
      subst hi
      cases ch <;> simp [flattenOne]
    · rw [if_neg hi]
      have hi' : ¬ targetId = i := fun hx => hi hx.symm
      cases ch with
      | none => simp [flattenOne, hi']
      | some cs =>
        have ih := specPathList_none_iff targetId cs
        dsimp only
        cases hcs : specPathList targetId cs with
        | none =>
          rw [hcs] at ih
          simp only [true_iff] at ih
          simp [flattenOne, hi', ih]
        | some pcs =>
          rw [hcs] at ih
          simp only [reduceCtorEq, false_iff, not_not] at ih
          simp [flattenOne, hi', ih]

/-- The spec search fails on a forest exactly when the target id occurs
nowhere in its flat index. -/
theorem specPathList_none_iff (targetId : String) (ts : List PTree) :
    specPathList targetId ts = none ↔ targetId ∉ (flattenList ts).map Prod.fst := by
  cases ts with
  | nil => simp [specPathList, flattenList]
  | cons t ts =>
    rw [specPathList.eq_def]
    dsimp only
    have ih1 := specPathOne_none_iff targetId t
    have ih2 := specPathList_none_iff targetId ts
    cases ht : specPathOne targetId t with
    | some q =>
      rw [ht] at ih1
      simp only [reduceCtorEq, false_iff, not_not] at ih1
      simp [flattenList, ih1]
    | none =>
      rw [ht] at ih1
      simp only [true_iff] at ih1
      simp [flattenList, ih1, ih2]
end

/-- C1 counterexample: for the chain `A{B{D}}` with initial selection "D"
(and expandAll not set), the proper ancestors of "D" are exactly
["A","B"], yet the expansion state after mount contains "D" itself (and
ancestor duplicates), so it does not contain exactly the proper ancestor
ids. -/
theorem c1_counterexample :
    mountExpandedItems (some "D") false exChain = ["D", "B", "B", "A", "A"]
    ∧ (specPathList "D" (processList none
        [branchI "A" [branchI "B" [leafI "D"]]])).map List.dropLast
        = some ["A", "B"]
    ∧ "D" ∈ mountExpandedItems (some "D") false exChain
    ∧ "D" ∉ ["A", "B"] := by
  refine ⟨by decide, by decide, by decide, by decide⟩

/-- C1 amended: with an initial selected id and expandAll unset, the
mount-time walk stores the ids of the whole root-to-target path — the
target id once and every proper ancestor twice (innermost first) — so the
expansion list is `dupWalk p` for the found path `p`, and its members are
exactly the path's ids (the target and its proper ancestors), the last of
which is the target.  If no node in the forest has the id, the expansion
state is left empty. -/
theorem c1_mount_amended (ts : List TreeItem) (target : String) :
    (target ∉ (flattenList (processList none ts)).map Prod.fst →
       mountExpandedItems (some target) false (.many ts) = [])
    ∧ (∀ p, specPathList target (processList none ts) = some p →
        mountExpandedItems (some target) false (.many ts) = dupWalk p
        ∧ (∀ x, x ∈ mountExpandedItems (some target) false (.many ts) ↔ x ∈ p)
        ∧ p.getLast? = some target) := by
  have hwalk : walkList target (processList none ts)
      = (specPathList target (processList none ts)).map dupWalk :=
    walkList_eq_spec target _
  constructor
  · intro hmem
    have hnone : specPathList target (processList none ts) = none :=
      (specPathList_none_iff target _).mpr hmem
    simp [mountExpandedItems, walkTreeItems, processItems, hwalk, hnone]
  · intro p hp
    have hne := specPathList_ne_nil target _ p hp
    have hlen : 0 < (dupWalk p).length := by
      cases p with
      | nil => exact absurd rfl hne
      | cons a q => simp [dupWalk, List.take]
    have hmount : mountExpandedItems (some target) false (.many ts)
        = dupWalk p := by
      simp only [mountExpandedItems, processItems, walkTreeItems, hwalk, hp,
        Bool.false_eq_true, if_false]
      show (if (dupWalk p).length > 0 then dupWalk p else []) = dupWalk p
      rw [if_pos hlen]
    refine ⟨hmount, ?_, specPathList_getLast target _ p hp⟩
    intro x
    rw [hmount]
    exact mem_dupWalk p x

/-- C1 witness: the amended description applied to the chain `A{B{D}}`
with initial selection "D": the stored list is the duplication pattern of
the path ["A","B","D"]. -/
theorem c1_mount_witness :
    mountExpandedItems (some "D") false exChain
      = dupWalk ["A", "B", "D"] := by
  have h := ((c1_mount_amended [branchI "A" [branchI "B" [leafI "D"]]] "D").2
      ["A", "B", "D"] (by decide)).1
  exact h
